import Mathlib

/-!
Verification of the blocked-mod matching engine of
`src/launcher/ui/dialogs/BlockedModsDialog.cpp`.

The dialog holds a list of `BlockedMod` records and reconciles them against
local files: directory scans prefilter files by name (`checkValidPath`),
surviving paths are hashed, and each computed hash is fed to
`checkMatchHash`, which marks the first unmatched entry with that expected
hash as matched.  `validateMatchedMods` clears matches whose files vanished.

The embedding below translates those member functions into pure Lean
functions.  The mod list (mutated in place in C++) is passed and returned
explicitly; the filesystem is abstracted as a predicate `fs : String → Bool`
telling whether a path denotes an existing regular file; the set of hash
tasks submitted by a scan is returned as the list of submitted paths.
-/

namespace BlockedModsDialog

/-- One blocked mod entry, mirroring `struct BlockedMod`
(fields used by `BlockedModsDialog.cpp`): expected file `name`, the
informational `websiteUrl`, the expected `hash`, the `matched` flag and the
`localPath` of the matching local file. -/
structure BlockedMod where
  name : String
  websiteUrl : String
  hash : String
  matched : Bool
  localPath : String
  deriving Repr, DecidableEq

/-- The characters of `s` folded to lower case (ASCII folding, applied
character by character). -/
def lowerChars (s : String) : List Char :=
  s.data.map Char.toLower

/-- `QString::compare(a, b, Qt::CaseInsensitive) == 0`: case-insensitive
string equality, modelled as equality after per-character lower-case
folding. -/
def ciEq (a b : String) : Bool :=
  lowerChars a == lowerChars b

/-- `QFileInfo(path).fileName()`: the component after the last path
separator — the longest separator-free suffix of the path. -/
def fileName (path : String) : String :=
  String.mk ((path.data.reverse.takeWhile fun c => c != '/').reverse)

/-- `BlockedModsDialog::checkMatchHash(hash, path)`: walk the mod list in
order; skip entries with `matched` set; the first remaining entry whose
`hash` equals the computed hash case-insensitively gets `matched := true`
and `localPath := path`, and the loop breaks.  Returns the updated list and
the `match` flag (in the C++ code, `update()` — the state-changed
notification — runs exactly when that flag is true). -/
def checkMatchHash (hash path : String) : List BlockedMod → List BlockedMod × Bool
  | [] => ([], false)
  | m :: ms =>
    if m.matched then
      let r := checkMatchHash hash path ms
      (m :: r.1, r.2)
    else if ciEq m.hash hash then
      ({ m with matched := true, localPath := path } :: ms, true)
    else
      let r := checkMatchHash hash path ms
      (m :: r.1, r.2)

/-- `BlockedModsDialog::checkValidPath(path)`: true when the base name of
`path` equals some entry's `name` case-insensitively (the `matched` flag is
not consulted). -/
def checkValidPath (mods : List BlockedMod) (path : String) : Bool :=
  mods.any fun m => ciEq m.name (fileName path)

/-- `BlockedModsDialog::scanPath(path)`: enumerate the files of the
directory (abstracted as the list `files`), and submit a hash task for each
file passing `checkValidPath`.  Returns the list of submitted paths. -/
def scanPath (mods : List BlockedMod) (files : List String) : List String :=
  files.filter fun f => checkValidPath mods f

/-- `BlockedModsDialog::validateMatchedMods()`: for every matched entry
whose `localPath` no longer denotes an existing regular file
(`!file.exists() || !file.isFile()`, abstracted as `fs`), reset
`matched := false` and `localPath := ""`; return the updated list together
with the `changed` flag (in the C++ code, `update()` runs exactly when that
flag is true). -/
def validateMatchedMods (fs : String → Bool) : List BlockedMod → List BlockedMod × Bool
  | [] => ([], false)
  | m :: ms =>
    let r := validateMatchedMods fs ms
    if m.matched && !(fs m.localPath) then
      ({ m with localPath := "", matched := false } :: r.1, true)
    else
      (m :: r.1, r.2)

/-- `BlockedModsDialog::allModsMatched()`:
`std::all_of(mods, [](m){ return m.matched; })`. -/
def allModsMatched (mods : List BlockedMod) : Bool :=
  mods.all fun m => m.matched

/-- `BlockedModsDialog::dropEvent(e)`: for each dropped URL's local file, in
order, submit a hash task unconditionally.  Returns the list of submitted
paths. -/
def dropEvent : List String → List String
  | [] => []
  | f :: fs => f :: dropEvent fs

/-- `BlockedModsDialog::directoryChanged(path)`: run `validateMatchedMods`,
then `scanPath(path)` on the (in-place updated) mod list.  Returns the mod
list after revalidation, the `changed` flag, and the paths submitted for
hashing by the subsequent scan. -/
def directoryChanged (fs : String → Bool) (files : List String)
    (mods : List BlockedMod) : List BlockedMod × Bool × List String :=
  let r := validateMatchedMods fs mods
  (r.1, r.2, scanPath r.1 files)

/-- The predicate `checkMatchHash` searches for: an entry not yet matched
whose expected hash equals the computed hash case-insensitively. -/
def hashCandidate (hash : String) (m : BlockedMod) : Bool :=
  !m.matched && ciEq m.hash hash

/-- Mark the entry at position `i` as matched at `path`, leaving every other
entry untouched (specification device for `checkMatchHash`). -/
def setMatchedAt (path : String) : Nat → List BlockedMod → List BlockedMod
  | _, [] => []
  | 0, m :: ms => { m with matched := true, localPath := path } :: ms
  | i + 1, m :: ms => m :: setMatchedAt path i ms

/-- Characterization of `checkMatchHash`: it updates exactly the first
candidate entry (found by `List.findIdx?`), or returns the list unchanged
with flag `false` when there is none. -/
theorem checkMatchHash_eq (hash path : String) (mods : List BlockedMod) :
    checkMatchHash hash path mods =
      match mods.findIdx? (hashCandidate hash) with
      | none => (mods, false)
      | some i => (setMatchedAt path i mods, true) := by
  induction mods with
  | nil => rfl
  | cons m ms ih =>
    simp only [checkMatchHash, List.findIdx?_cons, hashCandidate]
    by_cases hm : m.matched
    · simp only [hm, if_true, Bool.not_true, Bool.false_and, ih]
      cases h : ms.findIdx? (hashCandidate hash) with
      | none => simp [h]
      | some i => simp [h, setMatchedAt]
    · by_cases hh : ciEq m.hash hash
      · simp [hm, hh, hashCandidate, List.findIdx?_cons, setMatchedAt]
      · simp only [hm, Bool.false_eq_true, if_false, hh, ih]
        cases h : ms.findIdx? (hashCandidate hash) with
        | none => simp [h, hashCandidate, hh, hm]
        | some i => simp [h, hashCandidate, hh, hm, setMatchedAt]

/-- Characterization of `validateMatchedMods`: every matched entry whose
file no longer exists is reset, everything else is untouched, and the
`changed` flag is true exactly when some entry was reset. -/
theorem validateMatchedMods_eq (fs : String → Bool) (mods : List BlockedMod) :
    validateMatchedMods fs mods =
      (mods.map fun m =>
        if m.matched && !(fs m.localPath)
        then { m with localPath := "", matched := false } else m,
       mods.any fun m => m.matched && !(fs m.localPath)) := by
  induction mods with
  | nil => rfl
  | cons m ms ih =>
    simp only [validateMatchedMods, ih, List.map_cons, List.any_cons]
    by_cases h : m.matched && !(fs m.localPath)
    · simp [h]
    · simp [h]

theorem setMatchedAt_length (path : String) (i : Nat) (l : List BlockedMod) :
    (setMatchedAt path i l).length = l.length := by
  induction l generalizing i with
  | nil => cases i <;> rfl
  | cons m ms ih => cases i with
    | zero => rfl
    | succ i => simp [setMatchedAt, ih]

theorem setMatchedAt_getElem?_ne (path : String) (i j : Nat)
    (l : List BlockedMod) (hne : j ≠ i) :
    (setMatchedAt path i l)[j]? = l[j]? := by
  induction l generalizing i j with
  | nil => cases i <;> rfl
  | cons m ms ih =>
    cases i with
    | zero =>
      cases j with
      | zero => exact absurd rfl hne
      | succ j => simp [setMatchedAt]
    | succ i =>
      cases j with
      | zero => simp [setMatchedAt]
      | succ j =>
        simp only [setMatchedAt, List.getElem?_cons_succ]
        exact ih i j (fun h => hne (by rw [h]))

theorem setMatchedAt_getElem?_self (path : String) (i : Nat)
    (l : List BlockedMod) :
    (setMatchedAt path i l)[i]? =
      l[i]?.map fun m => { m with matched := true, localPath := path } := by
  induction l generalizing i with
  | nil => cases i <;> rfl
  | cons m ms ih => cases i with
    | zero => simp [setMatchedAt]
    | succ i => simp [setMatchedAt, ih]

/-- C1: `checkMatchHash(hash, path)` scans the entries in insertion order,
skips entries with `matched` set, and gives the first not-yet-matched entry
whose expected hash equals `hash` case-insensitively `matched := true` and
`localPath := path` (no entry when there is no such candidate).
Consequently, for two entries sharing the expected hash, the first confirm
call for that hash matches exactly the first entry, a second call with the
same hash matches the second still-unmatched entry, and a third call
changes nothing. -/
theorem checkMatchHash_first_match_wins (hash p1 p2 p3 : String)
    (e1 e2 : BlockedMod)
    (h1 : e1.matched = false) (h2 : e2.matched = false)
    (hh1 : ciEq e1.hash hash = true) (hh2 : ciEq e2.hash hash = true) :
    (∀ path mods, checkMatchHash hash path mods =
        match mods.findIdx? (hashCandidate hash) with
        | none => (mods, false)
        | some i => (setMatchedAt path i mods, true))
    ∧ checkMatchHash hash p1 [e1, e2] =
        ([{ e1 with matched := true, localPath := p1 }, e2], true)
    ∧ checkMatchHash hash p2 [{ e1 with matched := true, localPath := p1 }, e2] =
        ([{ e1 with matched := true, localPath := p1 },
          { e2 with matched := true, localPath := p2 }], true)
    ∧ checkMatchHash hash p3
        [{ e1 with matched := true, localPath := p1 },
         { e2 with matched := true, localPath := p2 }] =
        ([{ e1 with matched := true, localPath := p1 },
          { e2 with matched := true, localPath := p2 }], false) := by
  refine ⟨fun path mods => checkMatchHash_eq hash path mods, ?_, ?_, ?_⟩
  · simp [checkMatchHash, h1, hh1]
  · simp [checkMatchHash, h2, hh2]
  · simp [checkMatchHash]

/-- Closed instance of C1: the duplicate-hash scenario run on two concrete
entries sharing hash `dup1` (up to case). -/
theorem checkMatchHash_first_match_wins_witness :
    checkMatchHash "dup1" "/dl/a.jar"
        [⟨"A.jar", "urlA", "DUP1", false, ""⟩,
         ⟨"B.jar", "urlB", "dup1", false, ""⟩] =
      ([⟨"A.jar", "urlA", "DUP1", true, "/dl/a.jar"⟩,
        ⟨"B.jar", "urlB", "dup1", false, ""⟩], true)
    ∧ checkMatchHash "dup1" "/dl/b.jar"
        [⟨"A.jar", "urlA", "DUP1", true, "/dl/a.jar"⟩,
         ⟨"B.jar", "urlB", "dup1", false, ""⟩] =
      ([⟨"A.jar", "urlA", "DUP1", true, "/dl/a.jar"⟩,
        ⟨"B.jar", "urlB", "dup1", true, "/dl/b.jar"⟩], true)
    ∧ checkMatchHash "dup1" "/dl/c.jar"
        [⟨"A.jar", "urlA", "DUP1", true, "/dl/a.jar"⟩,
         ⟨"B.jar", "urlB", "dup1", true, "/dl/b.jar"⟩] =
      ([⟨"A.jar", "urlA", "DUP1", true, "/dl/a.jar"⟩,
        ⟨"B.jar", "urlB", "dup1", true, "/dl/b.jar"⟩], false) :=
  (checkMatchHash_first_match_wins "dup1" "/dl/a.jar" "/dl/b.jar" "/dl/c.jar"
      ⟨"A.jar", "urlA", "DUP1", false, ""⟩ ⟨"B.jar", "urlB", "dup1", false, ""⟩
      rfl rfl (by decide) (by decide)).2

/-- C2: `validateMatchedMods` resets `matched := false`, `localPath := ""`
for exactly those entries that were matched but whose `localPath` no longer
denotes an existing regular file, leaves every other entry unchanged, and
its `changed` result — the condition under which the state-changed
notification (`update()`) fires — is true iff at least one entry was
reset. -/
theorem validateMatchedMods_resets_stale (fs : String → Bool)
    (mods : List BlockedMod) :
    validateMatchedMods fs mods =
      (mods.map fun m =>
        if m.matched && !(fs m.localPath)
        then { m with localPath := "", matched := false } else m,
       mods.any fun m => m.matched && !(fs m.localPath)) :=
  validateMatchedMods_eq fs mods

/-- C3: during a directory scan, a file is submitted for hashing iff it was
enumerated and some entry's `name` equals the file's base name
case-insensitively; a file whose name matches no entry is never
submitted. -/
theorem scanPath_name_prefilter (mods : List BlockedMod)
    (files : List String) :
    ∀ f : String, f ∈ scanPath mods files ↔
      (f ∈ files ∧ ∃ m ∈ mods, ciEq m.name (fileName f) = true) := by
  intro f
  simp [scanPath, List.mem_filter, checkValidPath, List.any_eq_true, and_comm]

/-- Counterexample to C4 as stated: a file whose base name matches only an
already-matched entry IS submitted for hashing by `scanPath`
(`checkValidPath` never consults the `matched` flag). -/
theorem scanPath_counterexample_matched_name_hashed :
    (∀ m ∈ ([⟨"Foo.jar", "url", "h1", true, "/old/Foo.jar"⟩] :
        List BlockedMod), m.matched = true)
    ∧ scanPath [⟨"Foo.jar", "url", "h1", true, "/old/Foo.jar"⟩]
        ["/downloads/Foo.jar"] = ["/downloads/Foo.jar"] := by
  constructor
  · intro m hm
    simp only [List.mem_singleton] at hm
    rw [hm]
  · rfl

/-- C4 (amended): `scanPath` submits a hash task for every enumerated file
whose base name matches some entry case-insensitively even when every such
entry is already matched — the name prefilter ignores the `matched` flag,
so such files are still hashed. -/
theorem scanPath_hashes_matched_names (mods : List BlockedMod)
    (files : List String) :
    ∀ f ∈ files, (∃ m ∈ mods, m.matched = true ∧
        ciEq m.name (fileName f) = true) →
      f ∈ scanPath mods files := by
  intro f hf hm
  rcases hm with ⟨m, hmem, _, hci⟩
  simp only [scanPath, List.mem_filter, checkValidPath, List.any_eq_true]
  exact ⟨hf, m, hmem, hci⟩

/-- Closed instance for the amended C4: the concrete matched-only entry from
the counterexample still gets its file hashed. -/
theorem scanPath_hashes_matched_names_witness :
    "/downloads/Foo.jar" ∈
      scanPath [⟨"Foo.jar", "url", "h1", true, "/old/Foo.jar"⟩]
        ["/downloads/Foo.jar"] :=
  scanPath_hashes_matched_names
    [⟨"Foo.jar", "url", "h1", true, "/old/Foo.jar"⟩]
    ["/downloads/Foo.jar"] "/downloads/Foo.jar" (by simp)
    ⟨⟨"Foo.jar", "url", "h1", true, "/old/Foo.jar"⟩, by simp, rfl, by decide⟩

/-- C5: `directoryChanged(path)` is exactly `validateMatchedMods` followed
by `scanPath(path)` on the revalidated entries, in that order; in
particular, once it completes, every still-matched entry's `localPath`
denotes an existing regular file (revalidation finished before the
rescan). -/
theorem directoryChanged_is_revalidate_then_scan (fs : String → Bool)
    (files : List String) (mods : List BlockedMod) :
    directoryChanged fs files mods =
      ((validateMatchedMods fs mods).1, (validateMatchedMods fs mods).2,
       scanPath (validateMatchedMods fs mods).1 files)
    ∧ ∀ m ∈ (directoryChanged fs files mods).1,
        m.matched = true → fs m.localPath = true := by
  refine ⟨rfl, ?_⟩
  intro m hm hmatched
  simp only [directoryChanged, validateMatchedMods_eq, List.mem_map] at hm
  rcases hm with ⟨m₀, _, hm₀⟩
  by_cases h : m₀.matched && !(fs m₀.localPath)
  · rw [if_pos h] at hm₀
    rw [← hm₀] at hmatched
    exact absurd hmatched (by simp)
  · rw [if_neg h] at hm₀
    rw [← hm₀] at hmatched ⊢
    simpa [hmatched] using h

/-- C6: `dropEvent` submits every explicitly dropped path unconditionally —
the submitted list is the provided list itself, with no name prefilter and
no directory enumeration; even a path failing `checkValidPath` is
submitted. -/
theorem dropEvent_unconditional (mods : List BlockedMod)
    (paths : List String) :
    dropEvent paths = paths
    ∧ ∀ f ∈ paths, checkValidPath mods f = false → f ∈ dropEvent paths := by
  have h : dropEvent paths = paths := by
    induction paths with
    | nil => rfl
    | cons p ps ih => simp [dropEvent, ih]
  exact ⟨h, fun f hf _ => by rw [h]; exact hf⟩

/-- C7: `allModsMatched` is true iff every entry has `matched = true`, and
it is true for the empty list. -/
theorem allModsMatched_iff (mods : List BlockedMod) :
    (allModsMatched mods = true ↔ ∀ m ∈ mods, m.matched = true)
    ∧ allModsMatched [] = true := by
  constructor
  · simp [allModsMatched, List.all_eq_true]
  · rfl

/-- The per-entry invariant relating the match flag to the recorded path:
an entry is matched exactly when it carries a non-empty local path. -/
def modInv (m : BlockedMod) : Prop :=
  m.matched = true ↔ m.localPath ≠ ""

theorem mem_setMatchedAt (path : String) (i : Nat) (l : List BlockedMod)
    (m' : BlockedMod) (hm' : m' ∈ setMatchedAt path i l) :
    m' ∈ l ∨ ∃ m ∈ l, m' = { m with matched := true, localPath := path } := by
  induction l generalizing i with
  | nil => cases i <;> simp [setMatchedAt] at hm'
  | cons m ms ih =>
    cases i with
    | zero =>
      rcases List.mem_cons.mp hm' with h | h
      · exact Or.inr ⟨m, List.mem_cons_self m ms, h⟩
      · exact Or.inl (List.mem_cons_of_mem m h)
    | succ i =>
      rcases List.mem_cons.mp hm' with h | h
      · exact Or.inl (h ▸ List.mem_cons_self m ms)
      · rcases ih i h with h' | ⟨m₀, hm₀, he⟩
        · exact Or.inl (List.mem_cons_of_mem m h')
        · exact Or.inr ⟨m₀, List.mem_cons_of_mem m hm₀, he⟩

/-- C8: the invariant `matched = true ⇔ localPath ≠ ""` holds for freshly
constructed (unmatched, empty-path) entries, is preserved by
`checkMatchHash` whenever the supplied path is non-empty, and is preserved
by `validateMatchedMods` unconditionally. -/
theorem modInv_preserved :
    (∀ name url hash, modInv ⟨name, url, hash, false, ""⟩)
    ∧ (∀ hash path mods, path ≠ "" → (∀ m ∈ mods, modInv m) →
        ∀ m ∈ (checkMatchHash hash path mods).1, modInv m)
    ∧ (∀ (fs : String → Bool) mods, (∀ m ∈ mods, modInv m) →
        ∀ m ∈ (validateMatchedMods fs mods).1, modInv m) := by
  refine ⟨fun name url hash => by simp [modInv], ?_, ?_⟩
  · intro hash path mods hpath hinv m' hm'
    rw [checkMatchHash_eq] at hm'
    rcases h : mods.findIdx? (hashCandidate hash) with _ | i <;> rw [h] at hm'
    · exact hinv m' hm'
    · rcases mem_setMatchedAt path i mods m' hm' with h' | ⟨m₀, _, he⟩
      · exact hinv m' h'
      · rw [he]
        simpa [modInv] using hpath
  · intro fs mods hinv m' hm'
    rw [validateMatchedMods_eq] at hm'
    rcases List.mem_map.mp hm' with ⟨m₀, hm₀, he⟩
    by_cases h : m₀.matched && !(fs m₀.localPath)
    · rw [if_pos h] at he
      rw [← he]
      simp [modInv]
    · rw [if_neg h] at he
      rw [← he]
      exact hinv m₀ hm₀

/-- Closed instance of C8: a confirm with a non-empty path followed by a
revalidation that drops the file keeps the invariant on a concrete entry
list. -/
theorem modInv_preserved_witness :
    (modInv ⟨"A.jar", "u", "h1", false, ""⟩)
    ∧ (∀ m ∈ (checkMatchHash "h1" "/dl/A.jar"
        [⟨"A.jar", "u", "h1", false, ""⟩]).1, modInv m)
    ∧ (∀ m ∈ (validateMatchedMods (fun _ => false)
        [⟨"A.jar", "u", "h1", true, "/dl/A.jar"⟩]).1, modInv m) :=
  ⟨modInv_preserved.1 "A.jar" "u" "h1",
   modInv_preserved.2.1 "h1" "/dl/A.jar" [⟨"A.jar", "u", "h1", false, ""⟩]
     (by decide)
     (fun m hm => by rw [List.mem_singleton.mp hm]; simp [modInv]),
   modInv_preserved.2.2 (fun _ => false)
     [⟨"A.jar", "u", "h1", true, "/dl/A.jar"⟩]
     (fun m hm => by rw [List.mem_singleton.mp hm]; simp [modInv])⟩

/-- C10: a single `checkMatchHash` call preserves the list length, changes
nothing (and reports no match, hence fires no notification) when no
unmatched entry carries the hash, and otherwise rewrites only the first
candidate position: every other position holds exactly its old entry, and
the candidate position holds its old entry with only `matched` and
`localPath` updated. -/
theorem checkMatchHash_frame (hash path : String) (mods : List BlockedMod) :
    ((checkMatchHash hash path mods).1.length = mods.length)
    ∧ (mods.findIdx? (hashCandidate hash) = none →
        checkMatchHash hash path mods = (mods, false))
    ∧ (∀ i, mods.findIdx? (hashCandidate hash) = some i →
        (∀ j, j ≠ i → ((checkMatchHash hash path mods).1)[j]? = mods[j]?)
        ∧ ((checkMatchHash hash path mods).1)[i]? =
            mods[i]?.map fun m =>
              { m with matched := true, localPath := path }) := by
  refine ⟨?_, ?_, ?_⟩
  · rw [checkMatchHash_eq]
    rcases h : mods.findIdx? (hashCandidate hash) with _ | i
    · rfl
    · exact setMatchedAt_length path i mods
  · intro h
    rw [checkMatchHash_eq, h]
  · intro i h
    rw [checkMatchHash_eq, h]
    exact ⟨fun j hj => setMatchedAt_getElem?_ne path i j mods hj,
           setMatchedAt_getElem?_self path i mods⟩

/-- Modelled from the spec: the state of the bounded hashing task pool
(`ConcurrentTask`, constructed with capacity 10 in the dialog constructor;
its implementation is not part of this source tree).  Tasks are identified
by numbers; `pending` holds accepted tasks waiting for a slot in queue
order, `running` the tasks currently executing, `done` the completed
ones. -/
structure PoolState where
  pending : List Nat
  running : List Nat
  done : List Nat
  deriving Repr, DecidableEq

/-- Modelled from the spec: one scheduling step of the bounded task pool
with capacity `K` — either the front queued task is dispatched when a slot
is free (fewer than `K` tasks running), or some running task completes. -/
inductive PoolStep (K : Nat) : PoolState → PoolState → Prop
  | dispatch (t : Nat) (rest running done : List Nat) :
      running.length < K →
      PoolStep K ⟨t :: rest, running, done⟩ ⟨rest, t :: running, done⟩
  | complete (pending pre post done : List Nat) (t : Nat) :
      PoolStep K ⟨pending, pre ++ t :: post, done⟩
        ⟨pending, pre ++ post, t :: done⟩

/-- Reflexive-transitive closure of `PoolStep`: the pool states reachable
from a given state. -/
inductive PoolReach (K : Nat) : PoolState → PoolState → Prop
  | refl (s : PoolState) : PoolReach K s s
  | tail {s t u : PoolState} :
      PoolReach K s t → PoolStep K t u → PoolReach K s u

theorem PoolReach.trans {K : Nat} {s t u : PoolState}
    (h1 : PoolReach K s t) (h2 : PoolReach K t u) : PoolReach K s u := by
  induction h2 with
  | refl => exact h1
  | tail _ hstep ih => exact PoolReach.tail ih hstep

theorem PoolStep.running_le {K : Nat} {s t : PoolState}
    (h : PoolStep K s t) (hs : s.running.length ≤ K) :
    t.running.length ≤ K := by
  cases h with
  | dispatch t rest running done hlt => simpa using hlt
  | complete pending pre post done t =>
    simp only [List.length_append, List.length_cons] at hs ⊢
    omega

theorem poolDrainRunning (K : Nat) (running : List Nat) :
    ∀ (pending done : List Nat),
      PoolReach K ⟨pending, running, done⟩
        ⟨pending, [], running.reverse ++ done⟩ := by
  induction running with
  | nil => intro p d; exact PoolReach.refl _
  | cons t ts ih =>
    intro p d
    have h1 : PoolStep K ⟨p, t :: ts, d⟩ ⟨p, ts, t :: d⟩ :=
      PoolStep.complete p [] ts d t
    have h2 := ih p (t :: d)
    have h3 := PoolReach.trans (PoolReach.tail (PoolReach.refl _) h1) h2
    have he : ts.reverse ++ t :: d = (t :: ts).reverse ++ d := by
      simp
    rw [he] at h3
    exact h3

theorem poolDrainPending (K : Nat) (hK : 0 < K) (pending : List Nat) :
    ∀ done : List Nat,
      PoolReach K ⟨pending, [], done⟩ ⟨[], [], pending.reverse ++ done⟩ := by
  induction pending with
  | nil => intro d; exact PoolReach.refl _
  | cons t ts ih =>
    intro d
    have h1 : PoolStep K ⟨t :: ts, [], d⟩ ⟨ts, [t], d⟩ :=
      PoolStep.dispatch t ts [] d (by simpa using hK)
    have h2 : PoolStep K ⟨ts, [t], d⟩ ⟨ts, [], t :: d⟩ :=
      PoolStep.complete ts [] [] d t
    have h3 := ih (t :: d)
    have h4 := PoolReach.trans
      (PoolReach.tail (PoolReach.tail (PoolReach.refl _) h1) h2) h3
    have he : ts.reverse ++ t :: d = (t :: ts).reverse ++ d := by
      simp
    rw [he] at h4
    exact h4

/-- C9: in the capacity-10 pool model, every state reachable from an
initial state (no task running) has at most 10 tasks running — further
dispatches queue until a slot frees — and from any state the pool can run
every accepted task (queued, running or already done) to completion. -/
theorem boundedPool_capacity_and_completion :
    (∀ (tasks : List Nat) (s : PoolState),
        PoolReach 10 ⟨tasks, [], []⟩ s → s.running.length ≤ 10)
    ∧ (∀ s : PoolState, ∃ s' : PoolState, PoolReach 10 s s'
        ∧ s'.pending = [] ∧ s'.running = []
        ∧ ∀ t : Nat, (t ∈ s.pending ∨ t ∈ s.running ∨ t ∈ s.done) →
            t ∈ s'.done) := by
  constructor
  · intro tasks s h
    have h0 : (⟨tasks, [], []⟩ : PoolState).running.length ≤ 10 := by simp
    induction h with
    | refl => exact h0
    | tail _ hstep ih => exact hstep.running_le ih
  · intro s
    obtain ⟨p, r, d⟩ := s
    refine ⟨⟨[], [], p.reverse ++ (r.reverse ++ d)⟩, ?_, rfl, rfl, ?_⟩
    · exact PoolReach.trans (poolDrainRunning 10 r p d)
        (poolDrainPending 10 (by omega) p (r.reverse ++ d))
    · intro t ht
      simp only [List.mem_append, List.mem_reverse]
      rcases ht with h | h | h
      · exact Or.inl h
      · exact Or.inr (Or.inl h)
      · exact Or.inr (Or.inr h)

end BlockedModsDialog
